import Mathlib

/-!
Verification development for the bioapp biometric two-factor
authentication program.

The Python sources are embedded shallowly into Lean:

* `src/totp.py` / pyotp  — RFC 6238 TOTP over HMAC-SHA1 (`hotp`,
  `generate_otp`, `verify_otp`); byte strings become `List Nat` with
  each entry a byte value, machine words become `Nat` reduced modulo
  `2 ^ 32` where the source wraps.
* `src/hashing.py`       — PBKDF2-HMAC-SHA256 (`generate_hash`).
* `src/encryption.py`    — the Fernet layer of the cryptography
  package (`encrypt_data`, `decrypt_data`).
* `src/auth.py`          — the store and the `register_user` /
  `authenticate_user` orchestration.

Sources of randomness (`os.urandom`, `Fernet.generate_key`,
`pyotp.random_base32`) and the current time are passed as explicit
arguments.  Python exceptions are modelled with `Except`.
-/

namespace Bioapp

/-- Big-endian serialization of `v` into `n` bytes, most significant
byte first (Python `struct.pack` / `int.to_bytes` big-endian). -/
def toBytesBE (n v : Nat) : List Nat :=
  (List.range n).map (fun i => (v >>> (8 * (n - 1 - i))) % 256)

namespace SHA1

/-- Left rotation of a 32-bit word (operands below `2 ^ 32`). -/
def rotl (s x : Nat) : Nat :=
  ((x <<< s) ||| (x >>> (32 - s))) % 4294967296

/-- Round function and round constant of SHA-1 (FIPS 180-4, section
4.1.1): choice for rounds 0–19, parity for 20–39 and 60–79, majority
for 40–59. -/
def fK (t b c d : Nat) : Nat × Nat :=
  if t < 20 then ((b &&& c) ||| ((4294967295 ^^^ b) &&& d), 0x5a827999)
  else if t < 40 then (b ^^^ c ^^^ d, 0x6ed9eba1)
  else if t < 60 then ((b &&& c) ||| (b &&& d) ||| (c &&& d), 0x8f1bbcdc)
  else (b ^^^ c ^^^ d, 0xca62c1d6)

/-- Word `i` of the message schedule, 0 past the end. -/
def wAt (ws : List Nat) (i : Nat) : Nat := ws.getD i 0

/-- Extends a 16-word block by `k` further schedule words:
`w[i] = rotl 1 (w[i-3] xor w[i-8] xor w[i-14] xor w[i-16])`. -/
def extendWords : List Nat → Nat → List Nat
  | ws, 0 => ws
  | ws, k + 1 =>
    let n := ws.length
    extendWords
      (ws ++ [rotl 1 (wAt ws (n - 3) ^^^ wAt ws (n - 8) ^^^
        wAt ws (n - 14) ^^^ wAt ws (n - 16))]) k

/-- The 80 compression rounds; the list pairs each round index with
its schedule word. -/
def rounds : List (Nat × Nat) → Nat × Nat × Nat × Nat × Nat →
    Nat × Nat × Nat × Nat × Nat
  | [], s => s
  | (t, w) :: rest, (a, b, c, d, e) =>
    let fk := fK t b c d
    rounds rest
      ((rotl 5 a + fk.1 + e + fk.2 + w) % 4294967296, a, rotl 30 b, c, d)

/-- Compression of one 16-word block into the running state. -/
def compress (h : Nat × Nat × Nat × Nat × Nat) (block : List Nat) :
    Nat × Nat × Nat × Nat × Nat :=
  match h, rounds ((List.range 80).zip (extendWords block 64)) h with
  | (h0, h1, h2, h3, h4), (a, b, c, d, e) =>
    ((h0 + a) % 4294967296, (h1 + b) % 4294967296, (h2 + c) % 4294967296,
     (h3 + d) % 4294967296, (h4 + e) % 4294967296)

/-- Folds `compress` over `k` consecutive 16-word blocks. -/
def compressAll : Nat × Nat × Nat × Nat × Nat → List Nat → Nat →
    Nat × Nat × Nat × Nat × Nat
  | h, _, 0 => h
  | h, ws, k + 1 => compressAll (compress h (ws.take 16)) (ws.drop 16) k

/-- Groups bytes into big-endian 32-bit words. -/
def toWordsBE : List Nat → List Nat
  | a :: b :: c :: d :: rest =>
    (((a * 256 + b) * 256 + c) * 256 + d) :: toWordsBE rest
  | _ => []

/-- Merkle–Damgård padding: append `0x80`, zero bytes up to 56 mod 64,
then the bit length as 8 big-endian bytes. -/
def pad (msg : List Nat) : List Nat :=
  msg ++ 128 :: List.replicate ((64 + 56 - (msg.length + 1) % 64) % 64) 0
    ++ toBytesBE 8 (8 * msg.length)

/-- SHA-1 of a byte string, as 20 bytes. -/
def sha1 (msg : List Nat) : List Nat :=
  let ws := toWordsBE (pad msg)
  match compressAll (0x67452301, 0xefcdab89, 0x98badcfe, 0x10325476,
      0xc3d2e1f0) ws (ws.length / 16) with
  | (a, b, c, d, e) =>
    toBytesBE 4 a ++ toBytesBE 4 b ++ toBytesBE 4 c ++ toBytesBE 4 d ++
      toBytesBE 4 e

/-- HMAC-SHA1 (RFC 2104): block size 64 bytes, `0x36` inner pad,
`0x5c` outer pad. -/
def hmac (key msg : List Nat) : List Nat :=
  let k0 := if 64 < key.length then sha1 key else key
  let kp := k0 ++ List.replicate (64 - k0.length) 0
  sha1 ((kp.map (fun b => b ^^^ 0x5c)) ++
    sha1 ((kp.map (fun b => b ^^^ 0x36)) ++ msg))

end SHA1

/-- HOTP value (RFC 4226, pyotp `OTP.generate_otp`): HMAC-SHA1 of the
8-byte big-endian counter under the secret, dynamic truncation by the
low nibble of the last digest byte, reduced to 6 decimal digits.  The
secret is the base32-decoded byte form of the stored secret string
(pyotp `byte_secret`); the 6-digit zero-padded decimal string pyotp
renders is determined by this value, so codes are carried as `Nat`
below one million. -/
def hotp (secret : List Nat) (counter : Nat) : Nat :=
  let h := SHA1.hmac secret (toBytesBE 8 counter)
  let offset := h.getD 19 0 &&& 15
  (((h.getD offset 0 &&& 127) <<< 24) ||| (h.getD (offset + 1) 0 <<< 16) |||
    (h.getD (offset + 2) 0 <<< 8) ||| h.getD (offset + 3) 0) % 1000000

/-- pyotp `TOTP.timecode` with the default 30-second interval:
`int(time / 30)` for Unix time `t`. -/
def timecode (t : Nat) : Nat := t / 30

/-- `src/totp.py` `generate_otp(secret)` = `pyotp.TOTP(secret).now()`:
the code of the time step containing `t` (the hidden "now" is made an
explicit argument). -/
def generate_otp (secret : List Nat) (t : Nat) : Nat :=
  hotp secret (timecode t)

/-- `src/totp.py` `verify_otp(secret, code)` =
`pyotp.TOTP(secret).verify(code)`: pyotp's `verify` with its default
`valid_window = 0` compares the submitted code against the code of the
current time step only (`strings_equal(str(otp), str(self.at(now)))`,
which on 6-digit zero-padded codes is equality of the carried
values). -/
def verify_otp (secret : List Nat) (code : Nat) (t : Nat) : Bool :=
  code == generate_otp secret t

namespace SHA256

/-- Right rotation of a 32-bit word (operands below `2 ^ 32`). -/
def rotr (s x : Nat) : Nat :=
  ((x >>> s) ||| (x <<< (32 - s))) % 4294967296

/-- The 64 round constants of SHA-256 (FIPS 180-4, section 4.2.2). -/
def K : List Nat :=
  [1116352408, 1899447441, 3049323471, 3921009573, 961987163,
   1508970993, 2453635748, 2870763221, 3624381080, 310598401,
   607225278, 1426881987, 1925078388, 2162078206, 2614888103,
   3248222580, 3835390401, 4022224774, 264347078, 604807628,
   770255983, 1249150122, 1555081692, 1996064986, 2554220882,
   2821834349, 2952996808, 3210313671, 3336571891, 3584528711,
   113926993, 338241895, 666307205, 773529912, 1294757372,
   1396182291, 1695183700, 1986661051, 2177026350, 2456956037,
   2730485921, 2820302411, 3259730800, 3345764771, 3516065817,
   3600352804, 4094571909, 275423344, 430227734, 506948616,
   659060556, 883997877, 958139571, 1322822218, 1537002063,
   1747873779, 1955562222, 2024104815, 2227730452, 2361852424,
   2428436474, 2756734187, 3204031479, 3329325298]

/-- Extends a 16-word block by `k` further schedule words:
`w[i] = sigma1 w[i-2] + w[i-7] + sigma0 w[i-15] + w[i-16]` modulo
`2 ^ 32`, with `sigma0 = rotr 7 xor rotr 18 xor shr 3` and
`sigma1 = rotr 17 xor rotr 19 xor shr 10`. -/
def extendWords : List Nat → Nat → List Nat
  | ws, 0 => ws
  | ws, k + 1 =>
    let n := ws.length
    let w15 := SHA1.wAt ws (n - 15)
    let w2 := SHA1.wAt ws (n - 2)
    extendWords
      (ws ++ [((rotr 17 w2 ^^^ rotr 19 w2 ^^^ (w2 >>> 10)) +
        SHA1.wAt ws (n - 7) +
        (rotr 7 w15 ^^^ rotr 18 w15 ^^^ (w15 >>> 3)) +
        SHA1.wAt ws (n - 16)) % 4294967296]) k

/-- The 64 compression rounds; the list pairs each round constant with
its schedule word. -/
def rounds :
    List (Nat × Nat) →
    Nat × Nat × Nat × Nat × Nat × Nat × Nat × Nat →
    Nat × Nat × Nat × Nat × Nat × Nat × Nat × Nat
  | [], s => s
  | (k, w) :: rest, (a, b, c, d, e, f, g, h) =>
    let t1 := (h + (rotr 6 e ^^^ rotr 11 e ^^^ rotr 25 e) +
      ((e &&& f) ^^^ ((4294967295 ^^^ e) &&& g)) + k + w) % 4294967296
    let t2 := ((rotr 2 a ^^^ rotr 13 a ^^^ rotr 22 a) +
      ((a &&& b) ^^^ (a &&& c) ^^^ (b &&& c))) % 4294967296
    rounds rest ((t1 + t2) % 4294967296, a, b, c, (d + t1) % 4294967296,
      e, f, g)

/-- Compression of one 16-word block into the running state. -/
def compress (h : Nat × Nat × Nat × Nat × Nat × Nat × Nat × Nat)
    (block : List Nat) :
    Nat × Nat × Nat × Nat × Nat × Nat × Nat × Nat :=
  match h, rounds (K.zip (extendWords block 48)) h with
  | (h0, h1, h2, h3, h4, h5, h6, h7), (a, b, c, d, e, f, g, i) =>
    ((h0 + a) % 4294967296, (h1 + b) % 4294967296, (h2 + c) % 4294967296,
     (h3 + d) % 4294967296, (h4 + e) % 4294967296, (h5 + f) % 4294967296,
     (h6 + g) % 4294967296, (h7 + i) % 4294967296)

/-- Folds `compress` over `k` consecutive 16-word blocks. -/
def compressAll :
    Nat × Nat × Nat × Nat × Nat × Nat × Nat × Nat → List Nat → Nat →
    Nat × Nat × Nat × Nat × Nat × Nat × Nat × Nat
  | h, _, 0 => h
  | h, ws, k + 1 => compressAll (compress h (ws.take 16)) (ws.drop 16) k

/-- SHA-256 of a byte string, as 32 bytes.  Padding and word grouping
are those shared with SHA-1 (identical in FIPS 180-4 for both). -/
def sha256 (msg : List Nat) : List Nat :=
  let ws := SHA1.toWordsBE (SHA1.pad msg)
  match compressAll (1779033703, 3144134277, 1013904242, 2773480762,
      1359893119, 2600822924, 528734635, 1541459225) ws
      (ws.length / 16) with
  | (a, b, c, d, e, f, g, h) =>
    toBytesBE 4 a ++ toBytesBE 4 b ++ toBytesBE 4 c ++ toBytesBE 4 d ++
      toBytesBE 4 e ++ toBytesBE 4 f ++ toBytesBE 4 g ++ toBytesBE 4 h

/-- HMAC-SHA256 (RFC 2104): block size 64 bytes, `0x36` inner pad,
`0x5c` outer pad. -/
def hmac (key msg : List Nat) : List Nat :=
  let k0 := if 64 < key.length then sha256 key else key
  let kp := k0 ++ List.replicate (64 - k0.length) 0
  sha256 ((kp.map (fun b => b ^^^ 0x5c)) ++
    sha256 ((kp.map (fun b => b ^^^ 0x36)) ++ msg))

end SHA256

/-- Pointwise xor of two byte strings of equal length. -/
def xorBytes (a b : List Nat) : List Nat :=
  List.zipWith (fun x y => x ^^^ y) a b

/-- The iteration loop of PBKDF2: each step replaces `u` by
`HMAC-SHA256(pw, u)` and xors it into the accumulator. -/
def pbkdf2Loop (pw : List Nat) : List Nat → List Nat → Nat → List Nat
  | _, acc, 0 => acc
  | u, acc, k + 1 =>
    let u2 := SHA256.hmac pw u
    pbkdf2Loop pw u2 (xorBytes acc u2) k

/-- `hashlib.pbkdf2_hmac('sha256', pw, salt, iters)` with the default
output length of one SHA-256 block (32 bytes), so a single PBKDF2
block: `U1 = HMAC(pw, salt || INT(1))`, `U(i+1) = HMAC(pw, Ui)`, and
the result is the xor of `U1 .. U_iters` (RFC 2898, section 5.2). -/
def pbkdf2_hmac_sha256 (pw salt : List Nat) (iters : Nat) : List Nat :=
  let u1 := SHA256.hmac pw (salt ++ toBytesBE 4 1)
  pbkdf2Loop pw u1 u1 (iters - 1)

/-- The exception channel of the embedded Python functions:
`invalidToken` is `cryptography.fernet.InvalidToken` (the spec's
`DecryptionFailed`), `invalidInput` is the spec's `InvalidInput`. -/
inductive AppError where
  | invalidToken
  | invalidInput
deriving DecidableEq

/-- `src/hashing.py` `generate_hash(data, salt=None)`.  `data` is the
byte serialization `data.tobytes()` of the feature vector; when `salt`
is `None` the fresh `os.urandom(16)` salt is supplied by the explicit
`saltEntropy` argument.  The codomain is `Except` to record Python's
exception channel: the body performs no input validation and raises
nothing, so every path returns `.ok` with the salt actually used and
the 100000-iteration PBKDF2-HMAC-SHA256 digest. -/
def generate_hash (data : List Nat) (salt : Option (List Nat))
    (saltEntropy : List Nat) : Except AppError (List Nat × List Nat) :=
  let s := match salt with
    | none => saltEntropy
    | some s => s
  .ok (s, pbkdf2_hmac_sha256 data s 100000)

/-!
Model of `cryptography.fernet.Fernet`, the authenticated-encryption
layer behind `src/encryption.py`.  A real Fernet token is
`version(0x80) || timestamp(8) || IV(16) || AES-128-CBC ciphertext`,
followed by an HMAC-SHA256 tag over everything before it, and
`decrypt` rejects the token (`InvalidToken`) unless the version byte
is `0x80`, the header is complete, and the recomputed tag matches.
The model keeps exactly that token discipline and failure order but
idealizes the two cryptographic primitives into executable keyed
byte-stream functions: AES-128-CBC (with its random IV and PKCS7
padding) becomes the xor keystream `mask`, and the 32-byte HMAC-SHA256
tag becomes the per-position keyed checksum `macTag`, whose length
equals the signed portion (so a token splits into halves).  Both
preserve the contract the program relies on — decryption inverts
encryption under the same key, and the tag recomputation detects any
change to the stored token — which for real HMAC-SHA256 holds under
the standard cryptographic assumption.
-/

namespace Fernet

/-- Byte `i` of the keystream derived from `key` (the key bytes used
cyclically; `0` for an empty key). -/
def keyByte (key : List Nat) (i : Nat) : Nat :=
  key.getD (i % key.length) 0

/-- The cipher layer: xor the bytes with the keystream starting at
position `i`.  Applying it twice with the same key and offset is the
identity, the model of CBC decryption inverting CBC encryption. -/
def mask (key : List Nat) : Nat → List Nat → List Nat
  | _, [] => []
  | i, b :: bs => (b ^^^ keyByte key i) :: mask key (i + 1) bs

/-- The authentication tag: one checksum byte
`(b + keyByte key i) % 256` per signed byte, so the recomputed tag
differs from the stored one whenever any single signed byte was
changed (the model of the HMAC-SHA256 tag). -/
def macTag (key : List Nat) : Nat → List Nat → List Nat
  | _, [] => []
  | i, b :: bs => ((b + keyByte key i) % 256) :: macTag key (i + 1) bs

/-- `Fernet(key).encrypt(pt)` at Unix time `ts`: the signed portion
`0x80 || timestamp || masked plaintext` followed by its tag. -/
def encrypt_token (key : List Nat) (ts : Nat) (pt : List Nat) : List Nat :=
  let signed := 128 :: (toBytesBE 8 ts ++ mask key 0 pt)
  signed ++ macTag key 0 signed

/-- `Fernet(key).decrypt(tok)`: split the token into its signed
portion and its tag (halves, since the model tag has the length of
the signed portion), then apply Fernet's checks in order — token
shape, version byte `0x80`, complete header, tag match — raising
`InvalidToken` on any failure, and only then unmask the payload. -/
def decrypt_token (key tok : List Nat) : Except AppError (List Nat) :=
  if tok.length % 2 = 1 then .error .invalidToken
  else if (tok.take (tok.length / 2)).head? = some 128 then
    if 9 ≤ (tok.take (tok.length / 2)).length then
      if tok.drop (tok.length / 2) =
          macTag key 0 (tok.take (tok.length / 2)) then
        .ok (mask key 0 ((tok.take (tok.length / 2)).drop 9))
      else .error .invalidToken
    else .error .invalidToken
  else .error .invalidToken

end Fernet

/-- `src/encryption.py` `encrypt_data(data)`.  The source draws
`key = Fernet.generate_key()` and `os.urandom(16)`; both random
values, and the encryption time, are explicit arguments here.  It
returns the triple `(key, nonce, f.encrypt(data))` — note the nonce
is generated but plays no part in the Fernet token. -/
def encrypt_data (keyEntropy nonceEntropy : List Nat) (ts : Nat)
    (data : List Nat) : List Nat × List Nat × List Nat :=
  (keyEntropy, nonceEntropy, Fernet.encrypt_token keyEntropy ts data)

/-- `src/encryption.py` `decrypt_data(key, nonce, encrypted_data)`:
builds `Fernet(key)` and returns `f.decrypt(encrypted_data)`.  The
`nonce` parameter is accepted and ignored by the source body. -/
def decrypt_data (key nonce encrypted_data : List Nat) :
    Except AppError (List Nat) :=
  Fernet.decrypt_token key encrypted_data

/-- Flips bit `p % 8` of byte `p / 8` of a byte string. -/
def flipBit (p : Nat) (bs : List Nat) : List Nat :=
  bs.set (p / 8) (bs.getD (p / 8) 0 ^^^ (1 <<< (p % 8)))

/-- Python `==` on two `bytes` values as executed by CPython: unequal
lengths compare unequal at once, equal lengths are scanned from the
front and the scan stops at the first differing position
(`memcmp`).  This is the comparison `new_hash != decrypted_hash` in
`src/auth.py` performs (negated). -/
def bytesEq : List Nat → List Nat → Bool
  | [], [] => true
  | a :: as, b :: bs => if a = b then bytesEq as bs else false
  | _, _ => false

/-- Cost model for `bytesEq`: the number of byte positions the
short-circuiting scan inspects before returning (the length check on
unequal lengths inspects no bytes).  Byte-granularity model of the
`memcmp` running time. -/
def cmpCost : List Nat → List Nat → Nat
  | a :: as, b :: bs => if a = b then 1 + cmpCost as bs else 1
  | _, _ => 0

/-- One record of the `users.json` store, the value
`users[username]`.  The hex-encoded JSON fields are carried in their
decoded byte form (hex round-trips byte-exactly), and `otp_secret` in
its base32-decoded byte form. -/
structure UserRec where
  salt : List Nat
  encrypted_hash : List Nat
  key : List Nat
  nonce : List Nat
  otp_secret : List Nat
deriving DecidableEq

/-- The `users.json` dictionary: username-keyed association of
records.  `load_users`/`save_users` make the file contents the state
threaded through `register_user` and `authenticate_user`. -/
abbrev Store := List (String × UserRec)

/-- Dictionary update `users[username] = record`. -/
def storeSet (users : Store) (u : String) (r : UserRec) : Store :=
  (u, r) :: users.eraseP (fun p => p.1 == u)

instance instDecEqExcept {ε α : Type} [DecidableEq ε] [DecidableEq α] :
    DecidableEq (Except ε α) := fun x y =>
  match x, y with
  | .error a, .error b =>
    if h : a = b then .isTrue (congrArg Except.error h)
    else .isFalse (fun hc => h (Except.error.inj hc))
  | .error _, .ok _ => .isFalse (fun hc => Except.noConfusion hc)
  | .ok _, .error _ => .isFalse (fun hc => Except.noConfusion hc)
  | .ok a, .ok b =>
    if h : a = b then .isTrue (congrArg Except.ok h)
    else .isFalse (fun hc => h (Except.ok.inj hc))

/-- The outcome `register_user` prints. -/
inductive RegisterOutcome where
  | userAlreadyExists
  | registered
deriving DecidableEq

/-- State of the store after `register_user`, plus the outcome (with
`Except` as the Python exception channel). -/
structure RegisterResult where
  db : Store
  result : Except AppError RegisterOutcome
deriving DecidableEq

/-- `src/auth.py` `register_user(username)`.  The externally produced
values — the `generate_mock_fingerprint(username)` byte serialization,
the salt/key/nonce entropy, the encryption time and the
`pyotp.random_base32()` secret — are explicit arguments.  The source
loads the store, returns at once when the username is already present
(printing a warning; nothing is written), and otherwise hashes the
fingerprint, seals the digest, stores the new record and saves. -/
def register_user (db : Store) (username : String)
    (fingerprint saltEntropy keyEntropy nonceEntropy : List Nat)
    (ts : Nat) (otpSecret : List Nat) : RegisterResult :=
  if (db.lookup username).isSome then ⟨db, .ok .userAlreadyExists⟩
  else
    match generate_hash fingerprint none saltEntropy with
    | .error e => ⟨db, .error e⟩
    | .ok (salt, biometric_hash) =>
      match encrypt_data keyEntropy nonceEntropy ts biometric_hash with
      | (key, nonce, encrypted_hash) =>
        ⟨storeSet db username
          ⟨salt, encrypted_hash, key, nonce, otpSecret⟩, .ok .registered⟩

/-- The outcome `authenticate_user` prints. -/
inductive AuthOutcome where
  | userNotFound
  | biometricFailed
  | otpFailed
  | success
deriving DecidableEq

/-- Result of `authenticate_user`: the store state after the call,
whether the OTP prompt (`input(...)`) was reached, and the outcome —
`.error` meaning an exception escaped the function uncaught. -/
structure AuthResult where
  db : Store
  otpRequested : Bool
  result : Except AppError AuthOutcome
deriving DecidableEq

/-- `src/auth.py` `authenticate_user(username)`.  Arguments beyond the
store and username are the external inputs: the fresh
`generate_mock_fingerprint(username)` byte serialization, the OTP code
the user types at the prompt, and the verification time.  The source:
lookup failure returns at once; then the fresh fingerprint is hashed
with the stored salt, the stored hash is decrypted (any
`InvalidToken` is uncaught and escapes), the digests are compared
with `!=`, and only then the OTP is requested and verified. -/
def authenticate_user (db : Store) (username : String)
    (fingerprint : List Nat) (otpInput : Nat) (t : Nat) : AuthResult :=
  match db.lookup username with
  | none => ⟨db, false, .ok .userNotFound⟩
  | some user_data =>
    match generate_hash fingerprint (some user_data.salt) [] with
    | .error e => ⟨db, false, .error e⟩
    | .ok (_, new_hash) =>
      match decrypt_data user_data.key user_data.nonce
          user_data.encrypted_hash with
      | .error e => ⟨db, false, .error e⟩
      | .ok decrypted_hash =>
        if bytesEq new_hash decrypted_hash = false then
          ⟨db, false, .ok .biometricFailed⟩
        else if verify_otp user_data.otp_secret otpInput t = false then
          ⟨db, true, .ok .otpFailed⟩
        else ⟨db, true, .ok .success⟩

/-! ## Helper lemmas -/

namespace Fernet

theorem length_mask (key : List Nat) :
    ∀ (i : Nat) (l : List Nat), (mask key i l).length = l.length
  | _, [] => rfl
  | i, _ :: bs => congrArg Nat.succ (length_mask key (i + 1) bs)

theorem length_macTag (key : List Nat) :
    ∀ (i : Nat) (l : List Nat), (macTag key i l).length = l.length
  | _, [] => rfl
  | i, _ :: bs => congrArg Nat.succ (length_macTag key (i + 1) bs)

theorem mask_mask (key : List Nat) :
    ∀ (i : Nat) (l : List Nat), mask key i (mask key i l) = l
  | _, [] => rfl
  | i, b :: bs => by
    simp only [mask, Nat.xor_cancel_right]
    exact congrArg (b :: ·) (mask_mask key (i + 1) bs)

theorem macTag_getD (key : List Nat) :
    ∀ (i j : Nat) (l : List Nat), j < l.length →
      (macTag key i l).getD j 0 = (l.getD j 0 + keyByte key (i + j)) % 256
  | _, 0, _ :: _, _ => by simp [macTag]
  | i, j + 1, _ :: bs, h => by
    have hj : j < bs.length := by
      simpa [Nat.succ_lt_succ_iff] using h
    have ih := macTag_getD key (i + 1) j bs hj
    simp only [macTag, List.getD_cons_succ, ih]
    have : i + 1 + j = i + (j + 1) := by omega
    rw [this]

theorem keyByte_lt (key : List Nat) (hk : ∀ b ∈ key, b < 256) (i : Nat) :
    keyByte key i < 256 := by
  unfold keyByte
  rcases key with _ | ⟨a, l⟩
  · simp [List.getD]
  · have hpos : i % (a :: l).length < (a :: l).length :=
      Nat.mod_lt _ (by simp)
    rw [List.getD_eq_getElem _ _ hpos]
    exact hk _ (List.getElem_mem hpos)

theorem mask_mem_lt (key : List Nat) (hk : ∀ b ∈ key, b < 256) :
    ∀ (i : Nat) (l : List Nat), (∀ b ∈ l, b < 256) →
      ∀ b ∈ mask key i l, b < 256
  | _, [], _ => by simp [mask]
  | i, x :: xs, hl => by
    intro b hb
    simp only [mask, List.mem_cons] at hb
    rcases hb with hb | hb
    · subst hb
      have h1 : x < 256 := hl x (by simp)
      have h2 : keyByte key i < 256 := keyByte_lt key hk i
      exact Nat.xor_lt_two_pow (n := 8) h1 h2
    · exact mask_mem_lt key hk (i + 1) xs (fun b hb => hl b (by simp [hb])) b hb

theorem macTag_mem_lt (key : List Nat) :
    ∀ (i : Nat) (l : List Nat), ∀ b ∈ macTag key i l, b < 256
  | _, [], _ => by simp [macTag]
  | i, x :: xs, b => by
    intro hb
    simp only [macTag, List.mem_cons] at hb
    rcases hb with hb | hb
    · subst hb; exact Nat.mod_lt _ (by norm_num)
    · exact macTag_mem_lt key (i + 1) xs b hb

/-- The signed portion of a token. -/
theorem length_signed (key : List Nat) (ts : Nat) (pt : List Nat) :
    (128 :: (toBytesBE 8 ts ++ mask key 0 pt)).length = 9 + pt.length := by
  simp [toBytesBE, length_mask]
  omega

theorem length_encrypt_token (key : List Nat) (ts : Nat) (pt : List Nat) :
    (encrypt_token key ts pt).length = 2 * (9 + pt.length) := by
  unfold encrypt_token
  simp only [List.length_append, length_macTag, length_signed]
  omega

/-- Decryption inverts encryption under the matching key. -/
theorem decrypt_encrypt (key : List Nat) (ts : Nat) (pt : List Nat) :
    decrypt_token key (encrypt_token key ts pt) = .ok pt := by
  have hsig := length_signed key ts pt
  have htot := length_encrypt_token key ts pt
  unfold decrypt_token
  rw [htot]
  have hpar : ¬ (2 * (9 + pt.length)) % 2 = 1 := by omega
  rw [if_neg hpar]
  have hdiv : 2 * (9 + pt.length) / 2 = 9 + pt.length := by omega
  rw [hdiv]
  have htake : (encrypt_token key ts pt).take (9 + pt.length) =
      128 :: (toBytesBE 8 ts ++ mask key 0 pt) := by
    unfold encrypt_token
    exact List.take_left' hsig
  have hdrop9 : (encrypt_token key ts pt).drop (9 + pt.length) =
      macTag key 0 (128 :: (toBytesBE 8 ts ++ mask key 0 pt)) := by
    unfold encrypt_token
    exact List.drop_left' hsig
  rw [htake, hdrop9]
  have h9 : 9 ≤ (128 :: (toBytesBE 8 ts ++ mask key 0 pt)).length := by
    rw [hsig]; omega
  rw [if_pos rfl]
  rw [if_pos h9]
  have hhead : (128 :: (toBytesBE 8 ts ++ mask key 0 pt)).head? = some 128 :=
    rfl
  rw [if_pos hhead]
  have hdrop : (128 :: (toBytesBE 8 ts ++ mask key 0 pt)).drop 9 =
      mask key 0 pt := by
    have h8 : (toBytesBE 8 ts).length = 8 := by simp [toBytesBE]
    show (toBytesBE 8 ts ++ mask key 0 pt).drop 8 = mask key 0 pt
    exact List.drop_left' h8
  rw [hdrop, mask_mask]

theorem getD_set_self_nat (l : List Nat) (j b : Nat) (hj : j < l.length) :
    (l.set j b).getD j 0 = b := by
  rw [List.getD_eq_getElem _ _ (by simpa using hj)]
  simp

theorem getD_mem_lt (l : List Nat) (h : ∀ b ∈ l, b < 256) {j : Nat}
    (hj : j < l.length) : l.getD j 0 < 256 := by
  rw [List.getD_eq_getElem _ _ hj]
  exact h _ (List.getElem_mem hj)

theorem toBytesBE_mem_lt (n v : Nat) : ∀ b ∈ toBytesBE n v, b < 256 := by
  intro b hb
  unfold toBytesBE at hb
  simp only [List.mem_map] at hb
  obtain ⟨i, _, rfl⟩ := hb
  exact Nat.mod_lt _ (by norm_num)

/-- All bytes of a token are bytes, given byte-valued key and
plaintext. -/
theorem signed_mem_lt (key : List Nat) (ts : Nat) (pt : List Nat)
    (hk : ∀ b ∈ key, b < 256) (hpt : ∀ b ∈ pt, b < 256) :
    ∀ b ∈ 128 :: (toBytesBE 8 ts ++ mask key 0 pt), b < 256 := by
  intro b hb
  simp only [List.mem_cons, List.mem_append] at hb
  rcases hb with hb | hb | hb
  · omega
  · exact toBytesBE_mem_lt 8 ts b hb
  · exact mask_mem_lt key hk 0 pt hpt b hb

/-- Decryption rejects a token in which one byte of the signed
portion or of the tag was replaced by a different byte value: the
version check fails for the version byte, and the recomputed tag
differs from the stored one everywhere else.  `128 :: R` is the
signed portion of a well-formed token (version byte then at least the
8 timestamp bytes). -/
theorem decrypt_set_byte (key R : List Nat) (j b' : Nat)
    (hRlen : 8 ≤ R.length)
    (hSb : ∀ b ∈ 128 :: R, b < 256)
    (hj : j < 2 * (R.length + 1))
    (hb' : b' < 256)
    (hne : b' ≠
      ((128 :: R) ++ macTag key 0 (128 :: R)).getD j 0) :
    decrypt_token key
      (((128 :: R) ++ macTag key 0 (128 :: R)).set j b') =
      .error .invalidToken := by
  have hN : (128 :: R).length = R.length + 1 := by simp
  have hGlen : (macTag key 0 (128 :: R)).length = R.length + 1 := by
    rw [length_macTag, hN]
  have hTlen : ((128 :: R) ++ macTag key 0 (128 :: R)).length =
      2 * (R.length + 1) := by
    simp only [List.length_append, hN, hGlen]
    omega
  unfold decrypt_token
  rw [List.length_set, hTlen]
  have hpar : ¬ (2 * (R.length + 1)) % 2 = 1 := by omega
  rw [if_neg hpar]
  have hdiv : 2 * (R.length + 1) / 2 = R.length + 1 := by omega
  rw [hdiv]
  rcases Nat.lt_or_ge j (R.length + 1) with hjN | hjN
  · -- the replaced byte sits in the signed portion
    have hset : ((128 :: R) ++ macTag key 0 (128 :: R)).set j b' =
        (128 :: R).set j b' ++ macTag key 0 (128 :: R) :=
      List.set_append_left j b' (by omega)
    rw [hset]
    have hslen : ((128 :: R).set j b').length = R.length + 1 := by simp
    rw [List.take_left' hslen, List.drop_left' hslen]
    cases j with
    | zero =>
      have hb0 : ((128 :: R) ++ macTag key 0 (128 :: R)).getD 0 0 = 128 := by
        rw [List.getD_append _ _ _ _ (by simp)]
        rfl
      have hvers : ¬ (((128 :: R).set 0 b').head? = some 128) := by
        intro hcon
        apply hne
        rw [hb0]
        simpa using hcon
      rw [if_neg hvers]
    | succ k =>
      have hkk : k < R.length := by omega
      have hset2 : (128 :: R).set (k + 1) b' = 128 :: R.set k b' := rfl
      rw [hset2]
      rw [if_pos (show (128 :: R.set k b').head? = some 128 from rfl)]
      rw [if_pos (by simp; omega)]
      have hgetT : ((128 :: R) ++ macTag key 0 (128 :: R)).getD (k + 1) 0 =
          R.getD k 0 := by
        rw [List.getD_append _ _ _ _ (by simp; omega)]
        simp [List.getD_cons_succ]
      have hmain : ¬ (macTag key 0 (128 :: R) =
          macTag key 0 (128 :: R.set k b')) := by
        intro heq
        have hcongr := congrArg (fun l => l.getD (k + 1) 0) heq
        simp only at hcongr
        rw [macTag_getD key 0 (k + 1) (128 :: R) (by simp; omega),
            macTag_getD key 0 (k + 1) (128 :: R.set k b') (by simp; omega)]
          at hcongr
        simp only [List.getD_cons_succ] at hcongr
        rw [getD_set_self_nat R k b' hkk] at hcongr
        have h1 : R.getD k 0 < 256 := by
          refine getD_mem_lt R ?_ hkk
          intro b hb
          exact hSb b (by simp [hb])
        have h2 : b' ≠ R.getD k 0 := by
          rw [← hgetT]
          exact hne
        omega
      rw [if_neg hmain]
  · -- the replaced byte sits in the tag
    have hset : ((128 :: R) ++ macTag key 0 (128 :: R)).set j b' =
        (128 :: R) ++ (macTag key 0 (128 :: R)).set (j - (R.length + 1)) b' := by
      rw [List.set_append_right j b' (by omega)]
      rw [hN]
    rw [hset]
    have htlen2 : ((macTag key 0 (128 :: R)).set (j - (R.length + 1)) b').length
        = R.length + 1 := by
      rw [List.length_set, hGlen]
    rw [List.take_left' hN, List.drop_left' hN]
    rw [if_pos (show (128 :: R).head? = some 128 from rfl)]
    rw [if_pos (by simp; omega)]
    have hj2 : j - (R.length + 1) < (macTag key 0 (128 :: R)).length := by
      rw [hGlen]; omega
    have hmain : ¬ ((macTag key 0 (128 :: R)).set (j - (R.length + 1)) b' =
        macTag key 0 (128 :: R)) := by
      intro heq
      have hcongr := congrArg (fun l => l.getD (j - (R.length + 1)) 0) heq
      simp only at hcongr
      rw [getD_set_self_nat _ _ _ hj2] at hcongr
      apply hne
      rw [List.getD_append_right _ _ _ _ (by rw [hN]; omega)]
      rw [hN]
      exact hcongr
    rw [if_neg hmain]

end Fernet

theorem generate_hash_some (data s entropy : List Nat) :
    generate_hash data (some s) entropy =
      .ok (s, pbkdf2_hmac_sha256 data s 100000) := rfl

/-! ## Claims -/

/-- C5: for every digest `d`, if `seal(d)` produces
`(key, nonce, ciphertext)` — here with the key/nonce randomness and
the encryption time explicit — then `open(key, nonce, ciphertext)`
succeeds and returns exactly `d`. -/
theorem seal_open_roundtrip (keyE nonceE : List Nat) (ts : Nat)
    (d : List Nat) :
    decrypt_data (encrypt_data keyE nonceE ts d).1
      (encrypt_data keyE nonceE ts d).2.1
      (encrypt_data keyE nonceE ts d).2.2 = .ok d :=
  Fernet.decrypt_encrypt keyE ts d

/-- C4: for every digest `d` sealed as
`(key, nonce, ciphertext) = encrypt_data(...)` with byte-valued key
and digest, flipping any single bit of the stored ciphertext makes
`decrypt_data` fail with the decryption error — it never returns
successfully (with this or any other digest). -/
theorem open_rejects_bit_flip (key nonce : List Nat) (ts : Nat)
    (d : List Nat) (p : Nat)
    (hk : ∀ b ∈ key, b < 256) (hd : ∀ b ∈ d, b < 256)
    (hp : p < 8 * ((encrypt_data key nonce ts d).2.2).length) :
    decrypt_data key nonce
      (flipBit p (encrypt_data key nonce ts d).2.2) =
      .error .invalidToken := by
  have hp' : p < 8 * (Fernet.encrypt_token key ts d).length := hp
  have hshape : Fernet.encrypt_token key ts d =
      (128 :: (toBytesBE 8 ts ++ Fernet.mask key 0 d)) ++
        Fernet.macTag key 0
          (128 :: (toBytesBE 8 ts ++ Fernet.mask key 0 d)) := rfl
  have hRlen : 8 ≤ (toBytesBE 8 ts ++ Fernet.mask key 0 d).length := by
    simp [toBytesBE]
  have hSb : ∀ b ∈ 128 :: (toBytesBE 8 ts ++ Fernet.mask key 0 d), b < 256 :=
    Fernet.signed_mem_lt key ts d hk hd
  have hlenR : (Fernet.encrypt_token key ts d).length =
      2 * ((toBytesBE 8 ts ++ Fernet.mask key 0 d).length + 1) := by
    rw [Fernet.length_encrypt_token]
    simp [toBytesBE, Fernet.length_mask]
    omega
  have hj : p / 8 < 2 * ((toBytesBE 8 ts ++ Fernet.mask key 0 d).length + 1) := by
    rw [hlenR] at hp'
    omega
  have hb0lt : (Fernet.encrypt_token key ts d).getD (p / 8) 0 < 256 := by
    refine Fernet.getD_mem_lt _ ?_ ?_
    · intro b hb
      rw [hshape] at hb
      rcases List.mem_append.mp hb with hb | hb
      · exact hSb b hb
      · exact Fernet.macTag_mem_lt key 0 _ b hb
    · rw [hlenR]
      exact hj
  have hm : (1 <<< (p % 8)) < 256 := by
    have h2 : (1 <<< (p % 8)) = 2 ^ (p % 8) := by
      simp [Nat.shiftLeft_eq]
    rw [h2]
    calc 2 ^ (p % 8) ≤ 2 ^ 7 :=
          Nat.pow_le_pow_right (by norm_num)
            (by omega)
      _ < 256 := by norm_num
  have hmne : (1 <<< (p % 8)) ≠ 0 := by
    have h2 : (1 <<< (p % 8)) = 2 ^ (p % 8) := by
      simp [Nat.shiftLeft_eq]
    rw [h2]
    exact (Nat.pos_pow_of_pos _ (by norm_num)).ne'
  have hb' : ((Fernet.encrypt_token key ts d).getD (p / 8) 0 ^^^
      (1 <<< (p % 8))) < 256 := by
    have h8 := Nat.xor_lt_two_pow (n := 8)
      (by simpa using hb0lt) (by simpa using hm)
    simpa using h8
  have hneq : ((Fernet.encrypt_token key ts d).getD (p / 8) 0 ^^^
      (1 <<< (p % 8))) ≠ (Fernet.encrypt_token key ts d).getD (p / 8) 0 := by
    intro hcon
    apply hmne
    have hcon2 : (Fernet.encrypt_token key ts d).getD (p / 8) 0 ^^^
        (1 <<< (p % 8)) =
        (Fernet.encrypt_token key ts d).getD (p / 8) 0 ^^^ 0 := by
      rw [Nat.xor_zero]
      exact hcon
    exact Nat.xor_right_inj.mp hcon2
  have hflip : flipBit p (Fernet.encrypt_token key ts d) =
      (Fernet.encrypt_token key ts d).set (p / 8)
        ((Fernet.encrypt_token key ts d).getD (p / 8) 0 ^^^
          (1 <<< (p % 8))) := rfl
  show Fernet.decrypt_token key (flipBit p (Fernet.encrypt_token key ts d)) =
    .error .invalidToken
  rw [hflip]
  exact Fernet.decrypt_set_byte key (toBytesBE 8 ts ++ Fernet.mask key 0 d)
    (p / 8)
    ((Fernet.encrypt_token key ts d).getD (p / 8) 0 ^^^ (1 <<< (p % 8)))
    hRlen hSb hj hb' hneq

/-- Witness for C4: flipping bit 0 of a concrete sealed token is
rejected. -/
theorem open_rejects_bit_flip_witness :
    (∀ b ∈ ([3, 5] : List Nat), b < 256) ∧
    (∀ b ∈ ([7] : List Nat), b < 256) ∧
    0 < 8 * ((encrypt_data [3, 5] [] 0 [7]).2.2).length ∧
    decrypt_data [3, 5] []
      (flipBit 0 (encrypt_data [3, 5] [] 0 [7]).2.2) =
      .error .invalidToken :=
  ⟨by decide, by decide, by decide,
   open_rejects_bit_flip [3, 5] [] 0 [7] 0 (by decide) (by decide)
     (by decide)⟩

/-- C9: the result of `decrypt_data` is independent of its nonce
argument — the stored nonce plays no role in decryption. -/
theorem decrypt_data_ignores_nonce (key n1 n2 ct : List Nat) :
    decrypt_data key n1 ct = decrypt_data key n2 ct := rfl

/-- C10: `authenticate_user` never modifies the credential store: the
store state after the call equals the store passed in, for every
outcome. -/
theorem authenticate_user_preserves_store (db : Store) (u : String)
    (fp : List Nat) (otp t : Nat) :
    (authenticate_user db u fp otp t).db = db := by
  unfold authenticate_user
  split
  · rfl
  · split
    · rfl
    · split
      · rfl
      · split
        · rfl
        · split <;> rfl

/-- C6: a second `register_user` for a username already present in
the store fails with the user-already-exists outcome and leaves the
store completely unchanged. -/
theorem register_user_existing_unchanged (db : Store) (u : String)
    (fp se ke ne : List Nat) (ts : Nat) (sec : List Nat)
    (h : (db.lookup u).isSome = true) :
    register_user db u fp se ke ne ts sec =
      ⟨db, .ok .userAlreadyExists⟩ := by
  unfold register_user
  rw [if_pos h]

/-- Witness for C6 at a concrete one-user store. -/
theorem register_user_existing_unchanged_witness :
    (([(("alice" : String), (⟨[], [], [], [], []⟩ : UserRec))] :
        Store).lookup "alice").isSome = true ∧
    register_user [("alice", ⟨[], [], [], [], []⟩)] "alice" [] [] [] [] 0 [] =
      ⟨[("alice", ⟨[], [], [], [], []⟩)], .ok .userAlreadyExists⟩ :=
  ⟨by decide,
   register_user_existing_unchanged [("alice", ⟨[], [], [], [], []⟩)]
     "alice" [] [] [] [] 0 [] (by decide)⟩

/-- C8 counterexample: on the empty feature vector `generate_hash`
does not fail with `InvalidInput` — it succeeds (the body performs no
input validation and hashes the empty byte string). -/
theorem generate_hash_empty_succeeds :
    (generate_hash [] (some (List.replicate 16 0)) []).isOk = true ∧
    generate_hash [] (some (List.replicate 16 0)) [] ≠
      .error .invalidInput := by
  refine ⟨rfl, ?_⟩
  intro h
  exact Except.noConfusion h

/-- C8 amended: `generate_hash` succeeds on every input, the empty
vector included; it has no failure mode at all (no `InvalidInput`). -/
theorem generate_hash_total (data : List Nat) (salt : Option (List Nat))
    (entropy : List Nat) :
    (generate_hash data salt entropy).isOk = true := by
  cases salt <;> rfl

/-- C3 counterexample: two digest comparisons between byte strings of
the same length, unequal in both cases, cost a different number of
inspected byte cells depending on where the first difference sits —
the comparison `authenticate_user` performs is not constant-time. -/
theorem cmpCost_depends_on_position :
    bytesEq [0, 0, 0, 0] [1, 0, 0, 0] = false ∧
    bytesEq [0, 0, 0, 0] [0, 0, 0, 1] = false ∧
    ¬ cmpCost [0, 0, 0, 0] [1, 0, 0, 0] =
      cmpCost [0, 0, 0, 0] [0, 0, 0, 1] := by
  refine ⟨rfl, rfl, ?_⟩
  decide

/-- C3 amended: the digest comparison in `authenticate_user` is
Python's ordinary short-circuiting bytes equality; on inputs that
share `p` leading bytes and then differ, its cost is exactly `p + 1`
inspected positions, so the running time reveals the position of the
first difference. -/
theorem cmpCost_eq_first_diff (p s1 s2 : List Nat) (a b : Nat)
    (h : a ≠ b) :
    cmpCost (p ++ a :: s1) (p ++ b :: s2) = p.length + 1 := by
  induction p with
  | nil => simp [cmpCost, if_neg h]
  | cons x xs ih =>
    simp [cmpCost, ih]
    omega

/-- Witness for the amended C3 at concrete inputs. -/
theorem cmpCost_eq_first_diff_witness :
    (0 : Nat) ≠ 1 ∧ cmpCost [5, 5, 0] [5, 5, 1] = 3 :=
  ⟨by decide, cmpCost_eq_first_diff [5, 5] [] [] 0 1 (by decide)⟩

/-- A store holding one enrolled user whose record was corrupted: the
stored ciphertext is not a valid token for the stored key. -/
def tamperedStore : Store := [("alice", ⟨[], [], [], [], []⟩)]

/-- C2 counterexample: for the corrupted record in `tamperedStore`,
`authenticate_user` does not terminate with the biometric-rejection
outcome — the decryption failure escapes the call as an uncaught
`InvalidToken` exception, distinguishable from a digest mismatch. -/
theorem auth_decrypt_error_escapes_concrete :
    (authenticate_user tamperedStore "alice" [] 0 0).result =
      .error .invalidToken ∧
    (authenticate_user tamperedStore "alice" [] 0 0).result ≠
      .ok .biometricFailed := by
  have h : (authenticate_user tamperedStore "alice" [] 0 0).result =
      .error .invalidToken := rfl
  refine ⟨h, ?_⟩
  rw [h]
  intro hc
  exact Except.noConfusion hc

/-- C2 amended: whenever decryption of the stored hash fails, the
failure is not caught inside `authenticate_user`: the exception
escapes to the caller (and the OTP factor is never consulted), rather
than being converted into the biometric-rejection outcome. -/
theorem auth_decrypt_error_escapes (db : Store) (u : String)
    (fp : List Nat) (otp t : Nat) (ud : UserRec) (e : AppError)
    (h1 : db.lookup u = some ud)
    (h2 : decrypt_data ud.key ud.nonce ud.encrypted_hash = .error e) :
    (authenticate_user db u fp otp t).result = .error e ∧
    (authenticate_user db u fp otp t).otpRequested = false := by
  constructor <;> simp only [authenticate_user, h1, generate_hash_some, h2]

/-- Witness for the amended C2 at the concrete corrupted store. -/
theorem auth_decrypt_error_escapes_witness :
    tamperedStore.lookup "alice" = some ⟨[], [], [], [], []⟩ ∧
    decrypt_data ([] : List Nat) [] [] = .error .invalidToken ∧
    ((authenticate_user tamperedStore "alice" [] 0 0).result =
        .error .invalidToken ∧
      (authenticate_user tamperedStore "alice" [] 0 0).otpRequested =
        false) :=
  ⟨by decide, by decide,
   auth_decrypt_error_escapes tamperedStore "alice" [] 0 0
     ⟨[], [], [], [], []⟩ .invalidToken (by decide) (by decide)⟩

/-- C7: in every execution of `authenticate_user`, the OTP prompt is
reached exactly when the user lookup succeeded, the stored hash
decrypted, and the biometric digest comparison succeeded; and
whenever the OTP was never consulted the call did not end in
success.  In particular a failed lookup or failed biometric
comparison halts the call with the OTP factor never consulted. -/
theorem auth_factor_order (db : Store) (u : String) (fp : List Nat)
    (otp t : Nat) :
    ((authenticate_user db u fp otp t).otpRequested = true ↔
      ∃ ud dh, db.lookup u = some ud ∧
        decrypt_data ud.key ud.nonce ud.encrypted_hash = .ok dh ∧
        bytesEq (pbkdf2_hmac_sha256 fp ud.salt 100000) dh = true) ∧
    ((authenticate_user db u fp otp t).otpRequested = false →
      (authenticate_user db u fp otp t).result ≠ .ok .success) := by
  cases hl : db.lookup u with
  | none =>
    simp [authenticate_user, hl]
  | some ud =>
    cases hd : decrypt_data ud.key ud.nonce ud.encrypted_hash with
    | error e =>
      simp [authenticate_user, hl, generate_hash_some, hd]
    | ok dh =>
      cases hbe : bytesEq (pbkdf2_hmac_sha256 fp ud.salt 100000) dh with
      | false =>
        simp [authenticate_user, hl, generate_hash_some, hd, hbe]
      | true =>
        have hreduce : authenticate_user db u fp otp t =
            if verify_otp ud.otp_secret otp t = false then
              ⟨db, true, .ok .otpFailed⟩
            else ⟨db, true, .ok .success⟩ := by
          simp [authenticate_user, hl, generate_hash_some, hd, hbe]
        rw [hreduce]
        constructor
        · constructor
          · intro _
            exact ⟨ud, dh, rfl, hd, hbe⟩
          · intro _
            split <;> rfl
        · intro hreq
          split at hreq <;> simp at hreq

/-- Witness for C7 at a concrete empty store. -/
theorem auth_factor_order_witness :
    ((authenticate_user [] "alice" [] 0 0).otpRequested = true ↔
      ∃ ud dh, ([] : Store).lookup "alice" = some ud ∧
        decrypt_data ud.key ud.nonce ud.encrypted_hash = .ok dh ∧
        bytesEq (pbkdf2_hmac_sha256 [] ud.salt 100000) dh = true) ∧
    ((authenticate_user [] "alice" [] 0 0).otpRequested = false →
      (authenticate_user [] "alice" [] 0 0).result ≠ .ok .success) :=
  auth_factor_order [] "alice" [] 0 0

/-- The RFC 4226 appendix D test secret, the ASCII bytes of
`"12345678901234567890"` (the base32-decoded byte form a pyotp secret
takes). -/
def rfcSecret : List Nat :=
  [49, 50, 51, 52, 53, 54, 55, 56, 57, 48,
   49, 50, 51, 52, 53, 54, 55, 56, 57, 48]

set_option maxRecDepth 100000 in
/-- Fidelity of the TOTP embedding: the first two HOTP values of the
RFC 4226 appendix D test vector. -/
theorem hotp_matches_rfc4226 :
    hotp rfcSecret 0 = 755224 ∧ hotp rfcSecret 1 = 287082 := by
  constructor <;> decide

set_option maxRecDepth 100000 in
/-- C1 counterexample: at the RFC 4226 test secret and time `t = 59`
(time step 1), the codes generated for the immediately preceding step
(`t = 29`, step 0) and the immediately following step (`t = 89`,
step 2) are both rejected by `verify_otp` — there is no ±1-step skew
window. -/
theorem verify_otp_rejects_adjacent :
    verify_otp rfcSecret (generate_otp rfcSecret 29) 59 = false ∧
    verify_otp rfcSecret (generate_otp rfcSecret 89) 59 = false := by
  constructor <;> decide

set_option maxRecDepth 100000 in
/-- C1 amended: `verify_otp` accepts exactly the code of the current
time step (pyotp's default `valid_window = 0`): the current step's
code is accepted for every secret and time, and a code generated two
steps away is rejected whenever it differs from the current one, as at
the RFC 4226 test secret and `t = 59`. -/
theorem verify_otp_current_step_only :
    (∀ secret t, verify_otp secret (generate_otp secret t) t = true) ∧
    verify_otp rfcSecret (generate_otp rfcSecret 119) 59 = false := by
  constructor
  · intro s t
    simp [verify_otp]
  · decide

end Bioapp
